import Mathlib

/-!
Verification development for the undelivered-payload queue of the
`bugsnag-expo` repository (`packages/delivery-expo/queue.js`).

The queue persists one JSON file per payload inside a per-resource-type
directory.  We embed that state shallowly:

* a directory is an association list from filenames to stored contents;
* a stored content is either a parseable JSON object (modelled as an
  association list from string keys to integer values) or a corrupt blob
  on which `JSON.parse` throws;
* the Expo `FileSystem` primitives (`readDirectoryAsync`,
  `readAsStringAsync`, `writeAsStringAsync`, `deleteAsync`) are fallible;
  an `Env` record injects their failures so theorems can quantify over
  arbitrary storage faults;
* a queue state (`QState`) carries the directory, the `_truncating`
  single-flight flag and a count of `onerror` (ErrorSink) invocations;
* `peek` is recursive in the source; we embed it with explicit fuel so
  that running out of fuel witnesses non-termination of the recursion.

The operation bodies below are direct transcriptions of the source:
`enqueue`, `peek`, `remove`, `update`, `_truncate` (named `truncate`
here), `generateFilename`, the `bugsnag-*.json` filename filter and the
lexicographic `.sort()` used on directory listings.
-/

namespace Bq

/-- A JSON object, as `JSON.parse`/`JSON.stringify` round-trip it:
an association list from string keys to (integer) values. -/
abbrev Obj := List (String × Int)

/-- The content stored in one file: a parseable JSON object, or a
corrupt blob on which `JSON.parse` throws. -/
inductive Content where
  | json (o : Obj)
  | corrupt
deriving DecidableEq

/-- One resource type's directory: filenames paired with contents. -/
abbrev Files := List (String × Content)

/-- Failure injection for the Expo `FileSystem` collaborator:
which primitive calls throw. -/
structure Env where
  initFails : Bool
  unwritable : List String
  unreadable : List String
  undeletable : List String
  listFails : Bool

/-- The environment in which every `FileSystem` call succeeds. -/
def noFail : Env := ⟨false, [], [], [], false⟩

/-- State of one `UndeliveredPayloadQueue`: its directory, the
`_truncating` single-flight flag, and the number of `onerror`
(ErrorSink) invocations so far. -/
structure QState where
  files : Files
  truncating : Bool
  errors : Nat
deriving DecidableEq

/-- Constant `MAX_ITEMS` from the source (queue capacity bound). -/
def MAX_ITEMS : Int := 64

/-- Test `/^bugsnag-.*\.json$/.test f` — the directory-listing filter.
For strings long enough to match at all, prefix+suffix containment is
exactly the regex (the two anchors cannot overlap on a match). -/
def filenameRe (f : String) : Bool :=
  List.isPrefixOf "bugsnag-".data f.data &&
    List.isPrefixOf ".json".data.reverse f.data.reverse

/-- Template `` `bugsnag-${resource}-${(new Date()).toISOString()}-${uid()}.json` `` —
the generated filename; the wall-clock ISO timestamp and the 16-digit
random `uid()` are nondeterministic inputs, passed as arguments. -/
def generateFilename (resource ts u : String) : String :=
  "bugsnag-" ++ resource ++ "-" ++ ts ++ "-" ++ u ++ ".json"

/-- Lookup of a file's content by name (first match, as a filesystem
with unique names). -/
def lookupFile : Files → String → Option Content
  | [], _ => none
  | p :: fs, id => if p.1 = id then some p.2 else lookupFile fs id

/-- Does a file with this name exist? -/
def hasFile : Files → String → Bool
  | [], _ => false
  | p :: fs, id => p.1 = id || hasFile fs id

/-- Delete every entry with the given name. -/
def deleteFile : Files → String → Files
  | [], _ => []
  | p :: fs, id => if p.1 = id then deleteFile fs id else p :: deleteFile fs id

/-- Overwrite in place when the name exists, else create the file. -/
def replaceFile : Files → String → Content → Files
  | [], _, _ => []
  | p :: fs, id, c => if p.1 = id then (id, c) :: replaceFile fs id c
      else p :: replaceFile fs id c

/-- Effect of `FileSystem.writeAsStringAsync` on the directory. -/
def setFile (fs : Files) (id : String) (c : Content) : Files :=
  if hasFile fs id then replaceFile fs id c else fs ++ [(id, c)]

/-- Model of `FileSystem.readDirectoryAsync`: the filenames, or a throw. -/
def readDirectoryAsync (env : Env) (fs : Files) : Except Unit (List String) :=
  if env.listFails then .error () else .ok (fs.map fun p => p.1)

/-- Model of `FileSystem.readAsStringAsync`: a missing or unreadable file throws. -/
def readAsStringAsync (env : Env) (fs : Files) (id : String) :
    Except Unit Content :=
  if env.unreadable.contains id then .error ()
  else match lookupFile fs id with
    | some c => .ok c
    | none => .error ()

/-- Model of `JSON.parse`: throws on a corrupt blob. -/
def jsonParse : Content → Except Unit Obj
  | .json o => .ok o
  | .corrupt => .error ()

/-- Model of `FileSystem.writeAsStringAsync`: writes JSON, or throws. -/
def writeAsStringAsync (env : Env) (fs : Files) (id : String) (o : Obj) :
    Except Unit Files :=
  if env.unwritable.contains id then .error ()
  else .ok (setFile fs id (.json o))

/-- Model of `FileSystem.deleteAsync` without `idempotent`: throws when the file
is missing or when the injected fault says the delete fails. -/
def deleteAsync (env : Env) (fs : Files) (id : String) : Except Unit Files :=
  if env.undeletable.contains id then .error ()
  else if hasFile fs id then .ok (deleteFile fs id)
  else .error ()

/-- Does the object have this key? -/
def objHas : Obj → String → Bool
  | [], _ => false
  | p :: o, k => p.1 = k || objHas o k

/-- First value stored under this key. -/
def objGet : Obj → String → Option Int
  | [], _ => none
  | p :: o, k => if p.1 = k then some p.2 else objGet o k

/-- Keys of `a` that `b` does not override. -/
def objRemoveKeys : Obj → Obj → Obj
  | [], _ => []
  | p :: a, b => if objHas b p.1 then objRemoveKeys a b
      else p :: objRemoveKeys a b

/-- JavaScript object spread `{...a, ...b}`: a 1-level shallow merge in
which the keys of `b` override those of `a`. -/
def spread (a b : Obj) : Obj := objRemoveKeys a b ++ b

/-- Non-strict lexicographic order on code-unit sequences, as
JavaScript compares strings. -/
def lexLe : List Char → List Char → Bool
  | [], _ => true
  | _ :: _, [] => false
  | c :: cs, d :: ds =>
    if c.toNat < d.toNat then true
    else if d.toNat < c.toNat then false
    else lexLe cs ds

/-- Strict lexicographic order on code-unit sequences. -/
def lexLt : List Char → List Char → Bool
  | _, [] => false
  | [], _ :: _ => true
  | c :: cs, d :: ds =>
    if c.toNat < d.toNat then true
    else if d.toNat < c.toNat then false
    else lexLt cs ds

/-- JavaScript string comparison, non-strict. -/
def strLe (a b : String) : Bool := lexLe a.data b.data

/-- JavaScript string comparison, strict. -/
def strLt (a b : String) : Bool := lexLt a.data b.data

/-- One insertion step of the lexicographic string sort. -/
def insertSorted (x : String) : List String → List String
  | [] => [x]
  | y :: ys => if strLe x y then x :: y :: ys else y :: insertSorted x ys

/-- JavaScript `Array.prototype.sort()` on an array of ASCII filenames:
lexicographic ascending sort. -/
def sortStrings (l : List String) : List String := l.foldr insertSorted []

/-- Filter `.filter(f => filenameRe.test(f))` on a directory listing. -/
def filterMatching : List String → List String
  | [] => []
  | f :: fs => if filenameRe f then f :: filterMatching fs else filterMatching fs

/-- The number of queue entries (filenames matching `bugsnag-*.json`)
in a directory. -/
def countMatching (fs : Files) : Nat :=
  (filterMatching (fs.map fun p => p.1)).length

/-- Operation `remove(id)`: `deleteAsync` wrapped in try/catch; a throw is routed
to `onerror` and the call returns normally. -/
def remove (env : Env) (s : QState) (id : String) : QState :=
  match deleteAsync env s.files id with
  | .ok fs => { s with files := fs }
  | .error _ => { s with errors := s.errors + 1 }

/-- Body of `_truncate()` once the single-flight guard has been taken
(`s1.truncating = true` on entry): lists and sorts the matching
filenames, computes `diff = payloads.length - MAX_ITEMS`, returns when
`diff < 0`, else removes the first `diff` (oldest-sorted) entries via
`remove`, always clearing the guard afterwards; a throw from the listing
is caught, clears the guard and is routed to `onerror`. -/
def truncateGo (env : Env) (s1 : QState) : QState :=
  match readDirectoryAsync env s1.files with
  | .error _ => { s1 with truncating := false, errors := s1.errors + 1 }
  | .ok names =>
    if ((sortStrings (filterMatching names)).length : Int) - MAX_ITEMS < 0 then
      { s1 with truncating := false }
    else
      { ((sortStrings (filterMatching names)).take
            ((((sortStrings (filterMatching names)).length : Int) -
              MAX_ITEMS).toNat)).foldl
          (fun st f => remove env st f) s1 with
        truncating := false }

/-- Operation `_truncate()`: returns at once when a pass is already in flight,
else takes the single-flight guard and runs the compaction body. -/
def truncate (env : Env) (s : QState) : QState :=
  if s.truncating then s
  else truncateGo env { s with truncating := true }

/-- Operation `enqueue(req)`: `init`, then durably write `{ ...req, retries: 0 }`
under a fresh generated filename, then fire `_truncate`; any throw is
routed to `onerror`.  The generated filename is passed as an argument
(its timestamp and random components are nondeterministic inputs). -/
def enqueue (env : Env) (s : QState) (req : Obj) (fn : String) : QState :=
  if env.initFails then { s with errors := s.errors + 1 }
  else
    match writeAsStringAsync env s.files fn (spread req [("retries", 0)]) with
    | .error _ => { s with errors := s.errors + 1 }
    | .ok fs => truncate env { s with files := fs }

/-- Read a file and `JSON.parse` it, as `peek`/`update` do. -/
def readParse (env : Env) (fs : Files) (id : String) : Except Unit Obj :=
  match readAsStringAsync env fs id with
  | .error _ => .error ()
  | .ok c => jsonParse c

/-- Operation `peek()`: returns the lexicographically first matching entry; when
reading or parsing it throws, speculatively `remove`s it and recurses;
a throw from the directory listing is routed to `onerror` and yields
`null`.  The source recursion is embedded with explicit fuel: a `none`
result means the recursion did not terminate within the given fuel,
`some none` is the source's `null`, `some (some (id, payload))` its
`{ id, payload }`. -/
def peekFuel (env : Env) : Nat → QState → Option (Option (String × Obj)) × QState
  | 0, s => (none, s)
  | n + 1, s =>
    match readDirectoryAsync env s.files with
    | .error _ => (some none, { s with errors := s.errors + 1 })
    | .ok names =>
      match sortStrings (filterMatching names) with
      | [] => (some none, s)
      | f :: _ =>
        match readParse env s.files f with
        | .ok o => (some (some (f, o)), s)
        | .error _ => peekFuel env n (remove env s f)

/-- Operation `update(id, updates)`: read, parse, shallow merge, rewrite;
any throw is routed to `onerror` and the store is left unchanged. -/
def update (env : Env) (s : QState) (id : String) (updates : Obj) : QState :=
  match readParse env s.files id with
  | .error _ => { s with errors := s.errors + 1 }
  | .ok payload =>
    match writeAsStringAsync env s.files id (spread payload updates) with
    | .error _ => { s with errors := s.errors + 1 }
    | .ok fs => { s with files := fs }

/-- The drain loop's `peek`+`remove` cycle, iterated: the sequence of
`(id, payload)` pairs a consumer sees.  Each `peek` is given fuel one
more than the store size, enough whenever deletions succeed. -/
def drain (env : Env) : Nat → QState → List (String × Obj)
  | 0, _ => []
  | n + 1, s =>
    match peekFuel env (s.files.length + 1) s with
    | (some (some (id, o)), s1) => (id, o) :: drain env n (remove env s1 id)
    | _ => []

/-- A store freshly populated with the given parseable payloads, in
enqueue order. -/
def mkState (l : List (String × Obj)) : QState :=
  ⟨l.map fun p => (p.1, Content.json p.2), false, 0⟩

/-- The `retries` field of the stored record with the given id. -/
def getRetries (s : QState) (id : String) : Option Int :=
  match lookupFile s.files id with
  | some (Content.json o) => objGet o "retries"
  | _ => none

/-- 65 distinct, lexicographically increasing, matching filenames with
payloads: a store one over capacity. -/
def c2ex : List (String × Obj) :=
  (List.range 65).map fun i =>
    ("bugsnag-" ++ (if i < 10 then "0" else "") ++ toString i ++ ".json",
      [("i", (i : Int))])

/-! ### Basic lemmas about the string order and the sort -/

theorem lexLt_irrefl : ∀ l : List Char, lexLt l l = false
  | [] => rfl
  | c :: cs => by simp [lexLt, lexLt_irrefl cs]

theorem strLt_ne {a b : String} (h : strLt a b = true) : a ≠ b := by
  intro he
  subst he
  rw [strLt, lexLt_irrefl] at h
  exact Bool.false_ne_true h

theorem lexLe_of_lexLt : ∀ {a b : List Char}, lexLt a b = true → lexLe a b = true
  | [], _, _ => rfl
  | _ :: _, [], h => by simp [lexLt] at h
  | c :: cs, d :: ds, h => by
    by_cases h1 : c.toNat < d.toNat
    · simp [lexLe, h1]
    · by_cases h2 : d.toNat < c.toNat
      · simp [lexLt, h1, h2] at h
      · simp only [lexLt, if_neg h1, if_neg h2] at h
        simp [lexLe, h1, h2, lexLe_of_lexLt h]

theorem strLe_of_strLt {a b : String} (h : strLt a b = true) : strLe a b = true :=
  lexLe_of_lexLt h

theorem sortStrings_nil : sortStrings [] = [] := rfl

theorem sortStrings_cons (x : String) (l : List String) :
    sortStrings (x :: l) = insertSorted x (sortStrings l) := rfl

theorem sortStrings_eq_self :
    ∀ {l : List String}, List.Chain' (fun a b => strLe a b = true) l →
      sortStrings l = l
  | [], _ => rfl
  | [x], _ => rfl
  | x :: y :: l, h => by
    rcases List.chain'_cons.mp h with ⟨hxy, ht⟩
    rw [sortStrings_cons, sortStrings_eq_self ht, insertSorted, if_pos hxy]

theorem mem_insertSorted {y x : String} (l : List String)
    (h : y ∈ insertSorted x l) : y = x ∨ y ∈ l := by
  induction l with
  | nil => simpa [insertSorted] using h
  | cons z l ih =>
    rw [insertSorted] at h
    by_cases hc : strLe x z
    · rw [if_pos hc] at h
      rcases List.mem_cons.mp h with h | h
      · exact Or.inl h
      · exact Or.inr h
    · rw [if_neg hc] at h
      rcases List.mem_cons.mp h with h | h
      · exact Or.inr (h ▸ List.mem_cons_self z l)
      · rcases ih h with h | h
        · exact Or.inl h
        · exact Or.inr (List.mem_cons_of_mem z h)

theorem mem_sortStrings {y : String} (l : List String)
    (h : y ∈ sortStrings l) : y ∈ l := by
  induction l with
  | nil => simp [sortStrings] at h
  | cons x l ih =>
    rw [sortStrings_cons] at h
    rcases mem_insertSorted _ h with h | h
    · exact h ▸ List.mem_cons_self x l
    · exact List.mem_cons_of_mem x (ih h)

theorem length_insertSorted (x : String) :
    ∀ l : List String, (insertSorted x l).length = l.length + 1
  | [] => rfl
  | y :: l => by
    rw [insertSorted]
    by_cases hc : strLe x y
    · rw [if_pos hc]
      rfl
    · rw [if_neg hc]
      simp [length_insertSorted x l]

theorem length_sortStrings : ∀ l : List String,
    (sortStrings l).length = l.length
  | [] => rfl
  | x :: l => by
    rw [sortStrings_cons, length_insertSorted, length_sortStrings l]
    rfl

theorem mem_filterMatching {f : String} (l : List String)
    (h : f ∈ filterMatching l) : f ∈ l ∧ filenameRe f = true := by
  induction l with
  | nil => simp [filterMatching] at h
  | cons g l ih =>
    rw [filterMatching] at h
    by_cases hg : filenameRe g
    · rw [if_pos hg] at h
      rcases List.mem_cons.mp h with h | h
      · subst h
        exact ⟨List.mem_cons_self f l, hg⟩
      · rcases ih h with ⟨h1, h2⟩
        exact ⟨List.mem_cons_of_mem g h1, h2⟩
    · rw [if_neg hg] at h
      rcases ih h with ⟨h1, h2⟩
      exact ⟨List.mem_cons_of_mem g h1, h2⟩

theorem filterMatching_eq_self (l : List String)
    (h : ∀ f ∈ l, filenameRe f = true) : filterMatching l = l := by
  induction l with
  | nil => rfl
  | cons g l ih =>
    rw [filterMatching, if_pos (h g (List.mem_cons_self g l)),
      ih fun f hf => h f (List.mem_cons_of_mem g hf)]

/-! ### Basic lemmas about the file store -/

theorem hasFile_iff_mem (fs : Files) (id : String) :
    hasFile fs id = true ↔ id ∈ fs.map fun p => p.1 := by
  induction fs with
  | nil => simp [hasFile]
  | cons p fs ih =>
    simp only [hasFile, List.map_cons, List.mem_cons, Bool.or_eq_true,
      decide_eq_true_eq, ih]
    constructor
    · rintro (h | h)
      · exact Or.inl h.symm
      · exact Or.inr h
    · rintro (h | h)
      · exact Or.inl h.symm
      · exact Or.inr h

theorem deleteFile_eq_self {fs : Files} {id : String}
    (h : hasFile fs id = false) : deleteFile fs id = fs := by
  induction fs with
  | nil => rfl
  | cons p fs ih =>
    rw [hasFile, Bool.or_eq_false_iff] at h
    rw [deleteFile, if_neg (by simpa using h.1), ih h.2]

theorem hasFile_deleteFile (fs : Files) (id : String) :
    hasFile (deleteFile fs id) id = false := by
  induction fs with
  | nil => rfl
  | cons p fs ih =>
    rw [deleteFile]
    by_cases hp : p.1 = id
    · rw [if_pos hp]
      exact ih
    · rw [if_neg hp, hasFile, ih, Bool.or_false, decide_eq_false hp]

theorem lookupFile_deleteFile {g id : String} (fs : Files) (h : g ≠ id) :
    lookupFile (deleteFile fs id) g = lookupFile fs g := by
  induction fs with
  | nil => rfl
  | cons p fs ih =>
    rw [deleteFile]
    by_cases hp : p.1 = id
    · rw [if_pos hp, ih, lookupFile, if_neg (by rw [hp]; exact (Ne.symm h))]
    · rw [if_neg hp, lookupFile, lookupFile]
      by_cases hg : p.1 = g
      · rw [if_pos hg, if_pos hg]
      · rw [if_neg hg, if_neg hg, ih]

theorem length_deleteFile_lt {fs : Files} {id : String}
    (h : hasFile fs id = true) : (deleteFile fs id).length < fs.length := by
  induction fs with
  | nil => simp [hasFile] at h
  | cons p fs ih =>
    rw [deleteFile]
    by_cases hp : p.1 = id
    · rw [if_pos hp]
      calc (deleteFile fs id).length ≤ fs.length := by
            clear h ih
            induction fs with
            | nil => exact Nat.le_refl 0
            | cons q fs ihq =>
              rw [deleteFile]
              by_cases hq : q.1 = id
              · rw [if_pos hq]
                exact Nat.le_succ_of_le ihq
              · rw [if_neg hq]
                exact Nat.succ_le_succ ihq
        _ < (p :: fs).length := Nat.lt_succ_self _
    · rw [hasFile, Bool.or_eq_true, decide_eq_true_eq] at h
      rcases h with h | h
      · exact absurd h hp
      · rw [if_neg hp, List.length_cons, List.length_cons]
        exact Nat.succ_lt_succ (ih h)

theorem lookupFile_replaceFile_self {fs : Files} {id : String} {c : Content}
    (h : hasFile fs id = true) : lookupFile (replaceFile fs id c) id = some c := by
  induction fs with
  | nil => simp [hasFile] at h
  | cons p fs ih =>
    rw [replaceFile]
    by_cases hp : p.1 = id
    · rw [if_pos hp, lookupFile, if_pos rfl]
    · rw [hasFile, Bool.or_eq_true, decide_eq_true_eq] at h
      rcases h with h | h
      · exact absurd h hp
      · rw [if_neg hp, lookupFile, if_neg hp, ih h]

theorem lookupFile_replaceFile_ne {g id : String} {c : Content} (fs : Files)
    (h : g ≠ id) : lookupFile (replaceFile fs id c) g = lookupFile fs g := by
  induction fs with
  | nil => rfl
  | cons p fs ih =>
    rw [replaceFile]
    by_cases hp : p.1 = id
    · rw [if_pos hp, lookupFile, if_neg (Ne.symm h), lookupFile,
        if_neg (by rw [hp]; exact Ne.symm h), ih]
    · rw [if_neg hp, lookupFile, lookupFile]
      by_cases hg : p.1 = g
      · rw [if_pos hg, if_pos hg]
      · rw [if_neg hg, if_neg hg, ih]

theorem lookupFile_append_right {fs : Files} {id : String}
    (h : hasFile fs id = false) (l : Files) :
    lookupFile (fs ++ l) id = lookupFile l id := by
  induction fs with
  | nil => rfl
  | cons p fs ih =>
    rw [hasFile, Bool.or_eq_false_iff] at h
    rw [List.cons_append, lookupFile, if_neg (by simpa using h.1), ih h.2]

theorem lookupFile_setFile_self (fs : Files) (id : String) (c : Content) :
    lookupFile (setFile fs id c) id = some c := by
  rw [setFile]
  by_cases h : hasFile fs id
  · rw [if_pos h]
    exact lookupFile_replaceFile_self h
  · rw [if_neg h, lookupFile_append_right (Bool.of_not_eq_true h), lookupFile,
      if_pos rfl]

theorem lookupFile_append_ne {g id : String} (fs : Files) (c : Content)
    (h : g ≠ id) : lookupFile (fs ++ [(id, c)]) g = lookupFile fs g := by
  induction fs with
  | nil => simp [lookupFile, Ne.symm h]
  | cons p fs ih =>
    rw [List.cons_append, lookupFile, lookupFile]
    by_cases hg : p.1 = g
    · rw [if_pos hg, if_pos hg]
    · rw [if_neg hg, if_neg hg, ih]

theorem lookupFile_setFile_ne {g id : String} (fs : Files) (c : Content)
    (h : g ≠ id) : lookupFile (setFile fs id c) g = lookupFile fs g := by
  rw [setFile]
  by_cases hf : hasFile fs id
  · rw [if_pos hf, lookupFile_replaceFile_ne fs h]
  · rw [if_neg hf]
    exact lookupFile_append_ne fs c h

/-! ### Lemmas about the shallow merge -/

theorem objGet_none_of_not_has {b : Obj} {k : String} (h : objHas b k = false) :
    objGet b k = none := by
  induction b with
  | nil => rfl
  | cons p b ih =>
    rw [objHas, Bool.or_eq_false_iff] at h
    rw [objGet, if_neg (by simpa using h.1), ih h.2]

theorem objGet_isSome_of_has {b : Obj} {k : String} (h : objHas b k = true) :
    ∃ v, objGet b k = some v := by
  induction b with
  | nil => simp [objHas] at h
  | cons p b ih =>
    rw [objHas, Bool.or_eq_true, decide_eq_true_eq] at h
    rw [objGet]
    by_cases hp : p.1 = k
    · exact ⟨p.2, if_pos hp⟩
    · rcases h with h | h
      · exact absurd h hp
      · rw [if_neg hp]
        exact ih h

theorem objGet_objRemoveKeys_of_has {b : Obj} {k : String} (a : Obj)
    (h : objHas b k = true) : objGet (objRemoveKeys a b) k = none := by
  induction a with
  | nil => rfl
  | cons p a ih =>
    rw [objRemoveKeys]
    by_cases hp : objHas b p.1
    · rw [if_pos hp]
      exact ih
    · rw [if_neg hp, objGet,
        if_neg (fun he : p.1 = k => hp (by rw [he]; exact h)), ih]

theorem objGet_objRemoveKeys_of_not {b : Obj} {k : String} (a : Obj)
    (h : objHas b k = false) : objGet (objRemoveKeys a b) k = objGet a k := by
  induction a with
  | nil => rfl
  | cons p a ih =>
    rw [objRemoveKeys, objGet]
    by_cases hp : objHas b p.1
    · rw [if_pos hp, if_neg (fun he : p.1 = k => by rw [he] at hp; simp [h] at hp),
        ih]
    · rw [if_neg hp, objGet]
      by_cases hk : p.1 = k
      · rw [if_pos hk, if_pos hk]
      · rw [if_neg hk, if_neg hk, ih]

theorem objGet_append (a b : Obj) (k : String) :
    objGet (a ++ b) k =
      match objGet a k with
      | some v => some v
      | none => objGet b k := by
  induction a with
  | nil => rfl
  | cons p a ih =>
    rw [List.cons_append, objGet, objGet]
    by_cases hk : p.1 = k
    · rw [if_pos hk, if_pos hk]
    · rw [if_neg hk, if_neg hk, ih]

theorem objGet_spread (a b : Obj) (k : String) :
    objGet (spread a b) k =
      match objGet b k with
      | some w => some w
      | none => objGet a k := by
  rw [spread, objGet_append]
  by_cases hb : objHas b k
  · rcases objGet_isSome_of_has hb with ⟨v, hv⟩
    rw [objGet_objRemoveKeys_of_has a hb, hv]
  · have hb' : objHas b k = false := Bool.of_not_eq_true hb
    rw [objGet_objRemoveKeys_of_not a hb', objGet_none_of_not_has hb']
    cases objGet a k <;> rfl

theorem objGet_spread_retries (req : Obj) :
    objGet (spread req [("retries", 0)]) "retries" = some 0 := by
  rw [objGet_spread]
  have h : objGet [("retries", 0)] "retries" = some 0 := by decide
  rw [h]

/-! ### Operation-level helper lemmas -/

theorem readDirectoryAsync_ok {env : Env} {fs : Files} {names : List String}
    (h : readDirectoryAsync env fs = .ok names) :
    names = fs.map fun p => p.1 := by
  rw [readDirectoryAsync] at h
  split at h
  · cases h
  · cases h
    rfl

theorem remove_ok {env : Env} {s : QState} {id : String}
    (h1 : env.undeletable.contains id = false)
    (h2 : hasFile s.files id = true) :
    remove env s id = { s with files := deleteFile s.files id } := by
  rw [remove, deleteAsync, if_neg (by rw [h1]; simp), if_pos h2]

theorem remove_fail_missing {env : Env} {s : QState} {id : String}
    (h2 : hasFile s.files id = false) :
    remove env s id = { s with errors := s.errors + 1 } := by
  rw [remove, deleteAsync]
  by_cases h1 : env.undeletable.contains id
  · rw [if_pos h1]
  · rw [if_neg h1, if_neg (by simp [h2])]

theorem remove_fail_undeletable {env : Env} {s : QState} {id : String}
    (h1 : env.undeletable.contains id = true) :
    remove env s id = { s with errors := s.errors + 1 } := by
  rw [remove, deleteAsync, if_pos h1]

theorem remove_disj (env : Env) (s : QState) (id : String) :
    remove env s id = { s with files := deleteFile s.files id } ∨
      remove env s id = { s with errors := s.errors + 1 } := by
  by_cases h1 : env.undeletable.contains id
  · exact Or.inr (remove_fail_undeletable h1)
  · by_cases h2 : hasFile s.files id
    · exact Or.inl (remove_ok (Bool.of_not_eq_true h1) h2)
    · exact Or.inr (remove_fail_missing (Bool.of_not_eq_true h2))

theorem remove_truncating (env : Env) (s : QState) (id : String) :
    (remove env s id).truncating = s.truncating := by
  rw [remove]
  cases deleteAsync env s.files id <;> rfl

theorem truncate_of_flag {env : Env} {s : QState} (h : s.truncating = true) :
    truncate env s = s := by
  rw [truncate, if_pos h]

theorem truncateGo_truncating (env : Env) (s1 : QState) :
    (truncateGo env s1).truncating = false := by
  cases hrd : readDirectoryAsync env s1.files with
  | error e => simp only [truncateGo, hrd]
  | ok names =>
    simp only [truncateGo, hrd]
    by_cases hd : ((sortStrings (filterMatching names)).length : Int) -
        MAX_ITEMS < 0
    · rw [if_pos hd]
    · rw [if_neg hd]

theorem truncate_truncating (env : Env) (s : QState) :
    (truncate env s).truncating = s.truncating := by
  by_cases h : s.truncating
  · rw [truncate_of_flag h]
  · have h' : s.truncating = false := Bool.of_not_eq_true h
    rw [truncate, if_neg h, truncateGo_truncating, h']

theorem truncateGo_files_of_le {env : Env} {s1 : QState}
    (h : countMatching s1.files ≤ 64) :
    (truncateGo env s1).files = s1.files := by
  cases hrd : readDirectoryAsync env s1.files with
  | error e => simp only [truncateGo, hrd]
  | ok names =>
    simp only [truncateGo, hrd]
    have hlen : (sortStrings (filterMatching names)).length =
        countMatching s1.files := by
      rw [length_sortStrings, readDirectoryAsync_ok hrd]
      rfl
    by_cases hd : ((sortStrings (filterMatching names)).length : Int) -
        MAX_ITEMS < 0
    · rw [if_pos hd]
    · rw [if_neg hd]
      have ht : ((((sortStrings (filterMatching names)).length : Int) -
          MAX_ITEMS).toNat) = 0 := by
        rw [hlen, MAX_ITEMS]
        omega
      rw [ht, List.take_zero, List.foldl_nil]

theorem truncate_files_of_le {env : Env} {s : QState}
    (h : countMatching s.files ≤ 64) :
    (truncate env s).files = s.files := by
  by_cases hf : s.truncating
  · rw [truncate_of_flag hf]
  · rw [truncate, if_neg hf]
    exact truncateGo_files_of_le h

theorem contains_nil (x : String) : ([] : List String).contains x = false := rfl

theorem peekFuel_zero (env : Env) (s : QState) : peekFuel env 0 s = (none, s) :=
  rfl

theorem peekFuel_succ (env : Env) (n : Nat) (s : QState) :
    peekFuel env (n + 1) s =
      match readDirectoryAsync env s.files with
      | .error _ => (some none, { s with errors := s.errors + 1 })
      | .ok names =>
        match sortStrings (filterMatching names) with
        | [] => (some none, s)
        | f :: _ =>
          match readParse env s.files f with
          | .ok o => (some (some (f, o)), s)
          | .error _ => peekFuel env n (remove env s f) := rfl

theorem peekFuel_mono {env : Env} {n : Nat} :
    ∀ {m : Nat} {s : QState}, n ≤ m → (peekFuel env n s).1 ≠ none →
      peekFuel env m s = peekFuel env n s := by
  induction n with
  | zero =>
    intro m s _ hne
    exact absurd rfl hne
  | succ n ih =>
    intro m s hm hne
    cases m with
    | zero => exact absurd hm (by omega)
    | succ m =>
      rw [peekFuel_succ, peekFuel_succ]
      rw [peekFuel_succ] at hne
      cases hrd : readDirectoryAsync env s.files with
      | error e => simp only [hrd]
      | ok names =>
        simp only [hrd] at hne ⊢
        cases hsort : sortStrings (filterMatching names) with
        | nil => simp only [hsort]
        | cons f rest =>
          simp only [hsort] at hne ⊢
          cases hrp : readParse env s.files f with
          | ok o => simp only [hrp]
          | error e2 =>
            simp only [hrp] at hne ⊢
            exact ih (by omega) hne

/-- The head of the sorted, filtered directory listing is a matching
name present in the listing. -/
theorem sorted_head_spec {names : List String} {f : String}
    {rest : List String}
    (h : sortStrings (filterMatching names) = f :: rest) :
    filenameRe f = true ∧ f ∈ names := by
  have hm : f ∈ sortStrings (filterMatching names) :=
    h ▸ List.mem_cons_self f rest
  have hm2 := mem_filterMatching _ (mem_sortStrings _ hm)
  exact ⟨hm2.2, hm2.1⟩

/-- Frame lemma: `remove` never touches a file with a different name. -/
theorem remove_frame {env : Env} {s : QState} {id g : String} (hne : g ≠ id) :
    lookupFile (remove env s id).files g = lookupFile s.files g := by
  rcases remove_disj env s id with h | h
  · rw [h]
    exact lookupFile_deleteFile s.files hne
  · rw [h]

theorem foldl_remove_frame {env : Env} {g : String}
    (hg : filenameRe g = false) :
    ∀ (l : List String) (s : QState), (∀ f ∈ l, filenameRe f = true) →
      lookupFile (l.foldl (fun st f => remove env st f) s).files g =
        lookupFile s.files g := by
  intro l
  induction l with
  | nil => intro s _; rfl
  | cons f l ih =>
    intro s hall
    rw [List.foldl_cons,
      ih (remove env s f) fun x hx => hall x (List.mem_cons_of_mem f hx)]
    exact remove_frame fun he => by
      rw [he, hall f (List.mem_cons_self f l)] at hg
      cases hg

/-- Case split: `writeAsStringAsync` writes the serialized object or throws. -/
theorem write_ok_or (env : Env) (fs : Files) (id : String) (o : Obj) :
    writeAsStringAsync env fs id o = .ok (setFile fs id (.json o)) ∨
      writeAsStringAsync env fs id o = .error () := by
  rw [writeAsStringAsync]
  by_cases h : env.unwritable.contains id
  · rw [if_pos h]
    exact Or.inr rfl
  · rw [if_neg h]
    exact Or.inl rfl

/-- Frame lemma: `_truncate` never touches a non-matching file. -/
theorem truncate_frame {env : Env} {s : QState} {g : String}
    (hg : filenameRe g = false) :
    lookupFile (truncate env s).files g = lookupFile s.files g := by
  by_cases hf : s.truncating
  · rw [truncate_of_flag hf]
  · rw [truncate, if_neg hf]
    cases hrd : readDirectoryAsync env { s with truncating := true }.files with
    | error e => simp only [truncateGo, hrd]
    | ok names =>
      simp only [truncateGo, hrd]
      by_cases hd : ((sortStrings (filterMatching names)).length : Int) -
          MAX_ITEMS < 0
      · rw [if_pos hd]
      · rw [if_neg hd]
        exact foldl_remove_frame hg _ _ fun f hf =>
          (mem_filterMatching _
            (mem_sortStrings _ (List.take_subset _ _ hf))).2

/-- Frame lemma: `peek` never touches, and never returns, a file whose name does not
match. -/
theorem peek_frame {env : Env} {g : String} (hg : filenameRe g = false) :
    ∀ (n : Nat) (s : QState),
      lookupFile (peekFuel env n s).2.files g = lookupFile s.files g ∧
      ∀ i o, (peekFuel env n s).1 = some (some (i, o)) →
        filenameRe i = true := by
  intro n
  induction n with
  | zero =>
    intro s
    exact ⟨rfl, fun i o h => Option.noConfusion h⟩
  | succ n ih =>
    intro s
    constructor
    · rw [peekFuel_succ]
      cases hrd : readDirectoryAsync env s.files with
      | error e => rfl
      | ok names =>
        dsimp only
        cases hsort : sortStrings (filterMatching names) with
        | nil => rfl
        | cons f rest =>
          dsimp only
          cases hrp : readParse env s.files f with
          | ok o => rfl
          | error e2 =>
            dsimp only
            have hf : filenameRe f = true := (sorted_head_spec hsort).1
            have hne : g ≠ f := fun he => by
              rw [he, hf] at hg
              cases hg
            rw [(ih (remove env s f)).1, remove_frame hne]
    · rw [peekFuel_succ]
      cases hrd : readDirectoryAsync env s.files with
      | error e =>
        exact fun i o h => Option.noConfusion (Option.some.inj h)
      | ok names =>
        dsimp only
        cases hsort : sortStrings (filterMatching names) with
        | nil =>
          exact fun i o h => Option.noConfusion (Option.some.inj h)
        | cons f rest =>
          dsimp only
          cases hrp : readParse env s.files f with
          | ok o =>
            intro i o2 h
            have hio := Option.some.inj (Option.some.inj h)
            have hif : f = i := congrArg Prod.fst hio
            exact hif ▸ (sorted_head_spec hsort).1
          | error e2 =>
            dsimp only
            exact (ih (remove env s f)).2

theorem hasFile_false {fs : Files} {id : String}
    (h : id ∉ fs.map fun p => p.1) : hasFile fs id = false := by
  cases hh : hasFile fs id
  · rfl
  · exact absurd ((hasFile_iff_mem fs id).mp hh) h

theorem strLt_not_self {a : String} (h : strLt a a = true) : False := by
  rw [strLt, lexLt_irrefl] at h
  cases h

/-- Removing the `k` lexicographically first names of a name-sorted
store, one `remove` at a time, drops exactly its first `k` entries. -/
theorem foldl_remove_take :
    ∀ (fs : Files) (k : Nat) (s : QState), s.files = fs →
      (fs.map fun p => p.1).Pairwise (fun a b => strLt a b = true) →
      ((fs.map fun p => p.1).take k).foldl (fun st f => remove noFail st f) s =
        { s with files := fs.drop k } := by
  intro fs
  induction fs with
  | nil =>
    intro k s hs _
    rw [List.map_nil, List.take_nil, List.foldl_nil, List.drop_nil, ← hs]
  | cons p fs ih =>
    intro k s hs hp
    cases k with
    | zero =>
      rw [List.take_zero, List.foldl_nil, List.drop_zero, ← hs]
    | succ k =>
      rw [List.map_cons, List.take_succ_cons, List.foldl_cons,
        List.drop_succ_cons]
      have hhead : ∀ y ∈ fs.map fun q => q.1, strLt p.1 y = true :=
        (List.pairwise_cons.mp (by rwa [List.map_cons] at hp)).1
      have htail := (List.pairwise_cons.mp (by rwa [List.map_cons] at hp)).2
      have hnot : p.1 ∉ fs.map fun q => q.1 := fun hmem =>
        strLt_not_self (hhead _ hmem)
      have hrm : remove noFail s p.1 = { s with files := fs } := by
        rw [remove_ok (contains_nil p.1) (by rw [hs]; simp [hasFile])]
        rw [hs]
        simp only [deleteFile, if_pos rfl]
        rw [deleteFile_eq_self (hasFile_false hnot)]
        simp
      rw [hrm, ih k { s with files := fs } rfl htail]

theorem drain_succ (env : Env) (n : Nat) (s : QState) :
    drain env (n + 1) s =
      match peekFuel env (s.files.length + 1) s with
      | (some (some (id, o)), s1) => (id, o) :: drain env n (remove env s1 id)
      | _ => [] := rfl

/-- On a store whose filenames are sorted and all matching and whose
entries all parse, `peek` returns the first entry and changes nothing. -/
theorem peek_sorted_ok (p : String × Obj) (rest : List (String × Obj))
    (b : Bool) (e : Nat)
    (hm : ∀ f ∈ (p :: rest).map fun q => q.1, filenameRe f = true)
    (hc : ((p :: rest).map fun q => q.1).Chain' fun a b => strLe a b = true) :
    ∀ n : Nat, peekFuel noFail (n + 1)
        ⟨(p :: rest).map fun q => (q.1, Content.json q.2), b, e⟩ =
      (some (some (p.1, p.2)),
        ⟨(p :: rest).map fun q => (q.1, Content.json q.2), b, e⟩) := by
  intro n
  rw [peekFuel_succ]
  have hrd : readDirectoryAsync noFail
      (QState.mk ((p :: rest).map fun q => (q.1, Content.json q.2)) b e).files =
      .ok ((p :: rest).map fun q => q.1) := by
    rw [readDirectoryAsync, if_neg (by rw [noFail]; simp)]
    simp
  rw [hrd]
  dsimp only
  rw [filterMatching_eq_self _ hm, sortStrings_eq_self hc, List.map_cons]
  dsimp only
  have hrp : readParse noFail
      (QState.mk ((p :: rest).map fun q => (q.1, Content.json q.2)) b e).files
      p.1 = .ok p.2 := by
    rw [readParse, readAsStringAsync, if_neg (by rw [noFail]; simp)]
    simp only [List.map_cons, lookupFile, if_pos rfl]
    rfl
  rw [hrp]

/-- Unfolding of `enqueue` in the all-success environment: write the merged record
under the fresh name, then fire `_truncate`. -/
theorem enqueue_ok (s : QState) (req : Obj) (fn : String) :
    enqueue noFail s req fn =
      truncate noFail
        { s with
          files := setFile s.files fn (.json (spread req [("retries", 0)])) } := by
  rw [enqueue, if_neg (by rw [noFail]; simp), writeAsStringAsync,
    if_neg (by rw [noFail]; simp)]

/-- Unfolding of `update` in the all-success environment on a parseable record:
shallow merge and rewrite in place. -/
theorem update_ok {s : QState} {id : String} {o : Obj} (upd : Obj)
    (hl : lookupFile s.files id = some (Content.json o)) :
    update noFail s id upd =
      { s with files := setFile s.files id (.json (spread o upd)) } := by
  rw [update]
  have hrp : readParse noFail s.files id = .ok o := by
    rw [readParse, readAsStringAsync, if_neg (by rw [noFail]; simp), hl]
    rfl
  rw [hrp]
  dsimp only
  rw [writeAsStringAsync, if_neg (by rw [noFail]; simp)]

/-- Behavior of `peek` on a store whose oldest entry is corrupt and whose next
entry is valid: the corrupt entry is speculatively removed (with no
`onerror` report, since the delete succeeds) and the valid entry is
returned. -/
theorem peek_corrupt_then_valid {m1 m2 : String} {o : Obj} {e : Nat}
    (h1 : filenameRe m1 = true) (h2 : filenameRe m2 = true)
    (hlt : strLt m1 m2 = true) :
    peekFuel noFail 2
        ⟨[(m1, Content.corrupt), (m2, Content.json o)], false, e⟩ =
      (some (some (m2, o)), ⟨[(m2, Content.json o)], false, e⟩) := by
  have hne : ¬ m2 = m1 := fun he => strLt_ne hlt he.symm
  rw [peekFuel_succ]
  have hrd : readDirectoryAsync noFail
      (QState.mk [(m1, Content.corrupt), (m2, Content.json o)] false e).files =
      .ok [m1, m2] := by
    rw [readDirectoryAsync, if_neg (by rw [noFail]; simp)]
    rfl
  rw [hrd]
  dsimp only
  have hfm : filterMatching [m1, m2] = [m1, m2] := by
    apply filterMatching_eq_self
    intro f hf
    rcases List.mem_cons.mp hf with h | h
    · exact h ▸ h1
    · rcases List.mem_cons.mp h with h | h
      · exact h ▸ h2
      · cases h
  have hso : sortStrings [m1, m2] = [m1, m2] :=
    sortStrings_eq_self (List.chain'_pair.mpr (strLe_of_strLt hlt))
  rw [hfm, hso]
  dsimp only
  have hrp : readParse noFail
      (QState.mk [(m1, Content.corrupt), (m2, Content.json o)] false e).files
      m1 = .error () := by
    rw [readParse, readAsStringAsync, if_neg (by rw [noFail]; simp)]
    simp only [lookupFile, if_pos rfl]
    rfl
  rw [hrp]
  dsimp only
  have hrm : remove noFail
      (QState.mk [(m1, Content.corrupt), (m2, Content.json o)] false e) m1 =
      ⟨[(m2, Content.json o)], false, e⟩ := by
    rw [remove_ok (contains_nil m1) (by simp [hasFile])]
    simp [deleteFile, hne]
  rw [hrm, peekFuel_succ]
  have hrd2 : readDirectoryAsync noFail
      (QState.mk [(m2, Content.json o)] false e).files = .ok [m2] := by
    rw [readDirectoryAsync, if_neg (by rw [noFail]; simp)]
    rfl
  rw [hrd2]
  dsimp only
  have hfm2 : filterMatching [m2] = [m2] := by
    apply filterMatching_eq_self
    intro f hf
    rcases List.mem_cons.mp hf with h | h
    · exact h ▸ h2
    · cases h
  rw [hfm2, show sortStrings [m2] = [m2] from rfl]
  dsimp only
  have hrp2 : readParse noFail
      (QState.mk [(m2, Content.json o)] false e).files m2 = .ok o := by
    rw [readParse, readAsStringAsync, if_neg (by rw [noFail]; simp)]
    simp only [lookupFile, if_pos rfl]
    rfl
  rw [hrp2]

/-! ### The claims -/

/-- C3: self-healing peek — for a store whose oldest entry is corrupt
(unparseable) and whose next entry is valid, `peek` returns the valid
entry, and after the call the corrupt entry no longer exists in the
store. -/
theorem c3_self_heal {m1 m2 : String} {o : Obj} {e : Nat}
    (h1 : filenameRe m1 = true) (h2 : filenameRe m2 = true)
    (hlt : strLt m1 m2 = true) :
    peekFuel noFail 2
        ⟨[(m1, Content.corrupt), (m2, Content.json o)], false, e⟩ =
      (some (some (m2, o)), ⟨[(m2, Content.json o)], false, e⟩) :=
  peek_corrupt_then_valid h1 h2 hlt

/-- C3 witness: the self-healing run at a concrete store. -/
theorem c3_self_heal_witness :
    peekFuel noFail 2
        ⟨[("bugsnag-h1.json", Content.corrupt),
          ("bugsnag-h2.json", Content.json [("w", 4)])], false, 0⟩ =
      (some (some ("bugsnag-h2.json", [("w", 4)])),
        ⟨[("bugsnag-h2.json", Content.json [("w", 4)])], false, 0⟩) :=
  c3_self_heal (by decide) (by decide) (by decide)

/-- C4 counterexample: `peek` on a store holding a single corrupt entry
takes a failure path (`JSON.parse` threw), deletes the entry, and
returns null — with the ErrorSink invoked zero times.  This refutes
"every internal failure path ends in a call to the ErrorSink". -/
theorem c4_counterexample :
    peekFuel noFail 2 ⟨[("bugsnag-a.json", Content.corrupt)], false, 0⟩ =
      (some none, ⟨[], false, 0⟩) := by decide

/-- C4 (amended): no operation raises to its caller, and every failure
leaves the store in a well-defined state: `remove` either deletes the
file or reports to ErrorSink with the store unchanged; `update` either
reports with the store unchanged or merges and rewrites in place;
`enqueue` either reports with the store unchanged or writes the new
record and runs `_truncate`; `_truncate` always restores the guard
flag; and a failing directory listing makes `peek` report once and
return null.  (A corrupt entry met by `peek` is, however, self-healed
by deletion without its own ErrorSink report — see C5.) -/
theorem c4_no_raise (env : Env) (s : QState) (id fn : String)
    (req upd : Obj) :
    (remove env s id = { s with files := deleteFile s.files id } ∨
      remove env s id = { s with errors := s.errors + 1 }) ∧
    (update env s id upd = { s with errors := s.errors + 1 } ∨
      ∃ o, readParse env s.files id = .ok o ∧
        update env s id upd =
          { s with files := setFile s.files id (.json (spread o upd)) }) ∧
    (enqueue env s req fn = { s with errors := s.errors + 1 } ∨
      enqueue env s req fn =
        truncate env
          { s with
            files := setFile s.files fn
              (.json (spread req [("retries", 0)])) }) ∧
    (truncate env s).truncating = s.truncating ∧
    (∀ n, env.listFails = true →
      peekFuel env (n + 1) s =
        (some none, { s with errors := s.errors + 1 })) := by
  refine ⟨remove_disj env s id, ?_, ?_, truncate_truncating env s, ?_⟩
  · rw [update]
    cases hrp : readParse env s.files id with
    | error e => exact Or.inl rfl
    | ok o =>
      dsimp only
      cases hw : writeAsStringAsync env s.files id (spread o upd) with
      | error e => exact Or.inl rfl
      | ok fs =>
        rcases write_ok_or env s.files id (spread o upd) with h | h
        · rw [h] at hw
          injection hw with h2
          subst h2
          exact Or.inr ⟨o, rfl, rfl⟩
        · rw [h] at hw
          cases hw
  · rw [enqueue]
    by_cases hin : env.initFails
    · rw [if_pos hin]
      exact Or.inl rfl
    · rw [if_neg hin]
      cases hw : writeAsStringAsync env s.files fn
          (spread req [("retries", 0)]) with
      | error e => exact Or.inl rfl
      | ok fs =>
        rcases write_ok_or env s.files fn (spread req [("retries", 0)]) with
          h | h
        · rw [h] at hw
          injection hw with h2
          subst h2
          exact Or.inr rfl
        · rw [h] at hw
          cases hw
  · intro n hl
    rw [peekFuel_succ, readDirectoryAsync, if_pos hl]

/-- C4 witness: with a failing directory listing, `peek` reports once
and returns null. -/
theorem c4_no_raise_witness :
    peekFuel ⟨false, [], [], [], true⟩ 1 ⟨[], false, 0⟩ =
      (some none, ⟨[], false, 1⟩) :=
  (c4_no_raise ⟨false, [], [], [], true⟩ ⟨[], false, 0⟩ "a" "b" [] []).2.2.2.2
    0 rfl

/-- C5 counterexample: `peek` deletes the corrupt oldest entry and
returns the next entry, with the ErrorSink invoked zero times (the
error count stays 0) — the corrupt entry's deletion is not reported,
refuting the claim that every self-healed corrupt entry is reported. -/
theorem c5_counterexample :
    peekFuel noFail 2
        ⟨[("bugsnag-b.json", Content.corrupt),
          ("bugsnag-c.json", Content.json [("v", 3)])], false, 0⟩ =
      (some (some ("bugsnag-c.json", [("v", 3)])),
        ⟨[("bugsnag-c.json", Content.json [("v", 3)])], false, 0⟩) := by
  decide

/-- C5 (amended): when `peek` self-heals a corrupt entry and the
speculative deletion succeeds, the ErrorSink is NOT invoked: the
`onerror` count is unchanged and the corrupt entry is gone (a report
happens only if the deletion itself fails, inside `remove`). -/
theorem c5_silent_heal {m1 m2 : String} {o : Obj} {e : Nat}
    (h1 : filenameRe m1 = true) (h2 : filenameRe m2 = true)
    (hlt : strLt m1 m2 = true) :
    (peekFuel noFail 2
        ⟨[(m1, Content.corrupt), (m2, Content.json o)], false, e⟩).2.errors =
        e ∧
      lookupFile
        (peekFuel noFail 2
          ⟨[(m1, Content.corrupt), (m2, Content.json o)], false, e⟩).2.files
        m1 = none := by
  have hne : ¬ m2 = m1 := fun he => strLt_ne hlt he.symm
  rw [peek_corrupt_then_valid h1 h2 hlt]
  exact ⟨rfl, by simp [lookupFile, hne]⟩

/-- C5 witness: the silent self-heal at a concrete store. -/
theorem c5_silent_heal_witness :
    (peekFuel noFail 2
        ⟨[("bugsnag-s1.json", Content.corrupt),
          ("bugsnag-s2.json", Content.json [("u", 8)])], false, 0⟩).2.errors =
        0 ∧
      lookupFile
        (peekFuel noFail 2
          ⟨[("bugsnag-s1.json", Content.corrupt),
            ("bugsnag-s2.json", Content.json [("u", 8)])], false, 0⟩).2.files
        "bugsnag-s1.json" = none :=
  c5_silent_heal (by decide) (by decide) (by decide)

/-- C6 counterexample: when the oldest entry cannot be parsed and its
deletion fails, `peek` re-lists the directory and retries the very same
entry forever: with queue length 1, even 5 recursion steps do not
finish (each failed deletion being reported).  This refutes "at most as
many self-healing recursion steps as the current queue length,
including when the underlying delete operation fails". -/
theorem c6_counterexample :
    peekFuel ⟨false, [], [], ["bugsnag-d.json"], false⟩ 5
        ⟨[("bugsnag-d.json", Content.corrupt)], false, 0⟩ =
      (none, ⟨[("bugsnag-d.json", Content.corrupt)], false, 5⟩) := by
  decide

/-- C6 (amended): when the speculative deletions succeed, each
self-healing step strictly shrinks the store, so `peek` terminates
within queue length + 1 steps, for every store and any read/parse
faults. -/
theorem c6_terminates (env : Env) (s : QState)
    (hdel : env.undeletable = []) :
    (peekFuel env (s.files.length + 1) s).1 ≠ none := by
  have main : ∀ (N : Nat) (s' : QState), s'.files.length ≤ N →
      (peekFuel env (s'.files.length + 1) s').1 ≠ none := by
    intro N
    induction N with
    | zero =>
      intro s' hlen
      have hnil : s'.files = [] :=
        List.length_eq_zero.mp (Nat.le_zero.mp hlen)
      rw [peekFuel_succ]
      cases hrd : readDirectoryAsync env s'.files with
      | error e => exact fun h => Option.noConfusion h
      | ok names =>
        dsimp only
        have hn : names = [] := by
          rw [readDirectoryAsync_ok hrd, hnil]
          rfl
        rw [hn]
        exact fun h => Option.noConfusion h
    | succ N ih =>
      intro s' hlen
      rw [peekFuel_succ]
      cases hrd : readDirectoryAsync env s'.files with
      | error e => exact fun h => Option.noConfusion h
      | ok names =>
        dsimp only
        cases hsort : sortStrings (filterMatching names) with
        | nil => exact fun h => Option.noConfusion h
        | cons f rest =>
          dsimp only
          cases hrp : readParse env s'.files f with
          | ok o => exact fun h => Option.noConfusion h
          | error e2 =>
            dsimp only
            have hf : f ∈ names := (sorted_head_spec hsort).2
            have hhas : hasFile s'.files f = true :=
              (hasFile_iff_mem _ _).mpr
                (by rw [← readDirectoryAsync_ok hrd]; exact hf)
            have hrm : remove env s' f =
                { s' with files := deleteFile s'.files f } :=
              remove_ok (by rw [hdel]; rfl) hhas
            have hlt : (deleteFile s'.files f).length < s'.files.length :=
              length_deleteFile_lt hhas
            have hterm := ih { s' with files := deleteFile s'.files f }
              (by dsimp only; omega)
            rw [hrm]
            intro hcon
            apply hterm
            have heq := peekFuel_mono
              (show ({ s' with files := deleteFile s'.files f }).files.length +
                  1 ≤ s'.files.length from by dsimp only; omega) hterm
            rw [heq] at hcon
            exact hcon
  exact main s.files.length s (Nat.le_refl _)

/-- C6 witness: termination within queue length + 1 on a concrete
all-corrupt store. -/
theorem c6_terminates_witness :
    (peekFuel noFail
        ((QState.mk
            [("bugsnag-p.json", Content.corrupt),
             ("bugsnag-q.json", Content.corrupt)] false 0).files.length + 1)
        ⟨[("bugsnag-p.json", Content.corrupt),
          ("bugsnag-q.json", Content.corrupt)], false, 0⟩).1 ≠ none :=
  c6_terminates noFail _ rfl

/-- C8: remove is idempotent.  A second `remove` of the same identifier
returns normally (the underlying delete's throw is caught and routed to
`onerror`, never propagated) and leaves the stored files and the guard
flag unchanged. -/
theorem c8_remove_idempotent (env : Env) (s : QState) (id : String) :
    (remove env (remove env s id) id).files = (remove env s id).files ∧
      (remove env (remove env s id) id).truncating =
        (remove env s id).truncating := by
  refine ⟨?_, remove_truncating ..⟩
  by_cases h1 : env.undeletable.contains id
  · rw [remove_fail_undeletable (s := remove env s id) h1,
      remove_fail_undeletable (s := s) h1]
  · by_cases h2 : hasFile s.files id
    · rw [remove_ok (Bool.of_not_eq_true h1) h2,
        remove_fail_missing (s := { s with files := deleteFile s.files id })
          (hasFile_deleteFile s.files id)]
    · rw [remove_fail_missing (s := s) (Bool.of_not_eq_true h2),
        remove_fail_missing (s := { s with errors := s.errors + 1 })
          (Bool.of_not_eq_true h2)]

/-- C9: the single-flight truncation guard.  An invocation while the
guard is set returns at once with no removal and no state change at
all; and every `_truncate` invocation — including the skipped, the
within-limit, the removing and the failing ones — leaves the guard as
it found it, so a pass entered with the guard clear ends with the
guard clear again. -/
theorem c9_single_flight (env : Env) (s : QState) :
    (s.truncating = true → truncate env s = s) ∧
      (truncate env s).truncating = s.truncating :=
  ⟨fun h => truncate_of_flag h, truncate_truncating env s⟩

/-- C9 witness: a pass triggered while one is in flight is a no-op. -/
theorem c9_single_flight_witness :
    truncate noFail ⟨[("bugsnag-w.json", Content.json [("v", 1)])], true, 0⟩ =
      ⟨[("bugsnag-w.json", Content.json [("v", 1)])], true, 0⟩ :=
  (c9_single_flight noFail _).1 rfl

/-- C1 counterexample: two enqueues within the same `toISOString`
millisecond get filenames that differ only in the random `uid()`
suffix; when the second enqueue draws a smaller suffix its filename
sorts first, so repeated `peek`+`remove` returns the payloads in the
REVERSE of the enqueue order — refuting "lexicographic sort of
generated filenames equals creation order, including for two enqueues
in the same timestamp resolution unit". -/
theorem c1_counterexample :
    drain noFail 2
        (enqueue noFail
          (enqueue noFail ⟨[], false, 0⟩ [("v", 1)]
            (generateFilename "errors" "2026-10-11T12:00:00.000Z"
              "9000000000000000"))
          [("v", 2)]
          (generateFilename "errors" "2026-10-11T12:00:00.000Z"
            "0000000000000000")) =
      [(generateFilename "errors" "2026-10-11T12:00:00.000Z"
          "0000000000000000", [("v", 2), ("retries", 0)]),
       (generateFilename "errors" "2026-10-11T12:00:00.000Z"
          "9000000000000000", [("v", 1), ("retries", 0)])] ∧
    drain noFail 2
        (enqueue noFail
          (enqueue noFail ⟨[], false, 0⟩ [("v", 1)]
            (generateFilename "errors" "2026-10-11T12:00:00.000Z"
              "9000000000000000"))
          [("v", 2)]
          (generateFilename "errors" "2026-10-11T12:00:00.000Z"
            "0000000000000000")) ≠
      [(generateFilename "errors" "2026-10-11T12:00:00.000Z"
          "9000000000000000", [("v", 1), ("retries", 0)]),
       (generateFilename "errors" "2026-10-11T12:00:00.000Z"
          "0000000000000000", [("v", 2), ("retries", 0)])] :=
  ⟨by decide, by decide⟩

/-- C1 (amended): strict FIFO holds whenever the generated filenames
are lexicographically strictly increasing in enqueue order (as the
identifier-monotonicity invariant demands, and as holds whenever the
millisecond timestamps strictly increase): on a store of such entries,
repeated `peek`+`remove` returns the payloads in exactly the order they
were enqueued, `peek` always returning the oldest. -/
theorem c1_fifo :
    ∀ l : List (String × Obj),
      (l.map fun p => p.1).Pairwise (fun a b => strLt a b = true) →
      (∀ f ∈ l.map fun p => p.1, filenameRe f = true) →
      drain noFail l.length (mkState l) = l := by
  intro l
  induction l with
  | nil => intro _ _; rfl
  | cons p rest ih =>
    intro hp hm
    have hc : ((p :: rest).map fun q => q.1).Chain'
        (fun a b => strLe a b = true) :=
      hp.chain'.imp fun a b hab => strLe_of_strLt hab
    rw [List.length_cons, drain_succ, mkState]
    dsimp only
    rw [peek_sorted_ok p rest false 0 hm hc]
    dsimp only
    have hhead : ∀ y ∈ rest.map fun q => q.1, strLt p.1 y = true :=
      (List.pairwise_cons.mp (by rwa [List.map_cons] at hp)).1
    have htail : (rest.map fun q => q.1).Pairwise
        (fun a b => strLt a b = true) :=
      (List.pairwise_cons.mp (by rwa [List.map_cons] at hp)).2
    have hnot : p.1 ∉ rest.map fun q => q.1 := fun hmem =>
      strLt_not_self (hhead _ hmem)
    have hrm : remove noFail
        ⟨(p :: rest).map fun q => (q.1, Content.json q.2), false, 0⟩ p.1 =
        mkState rest := by
      rw [remove_ok (contains_nil p.1) (by simp [hasFile])]
      rw [mkState]
      simp only [List.map_cons, deleteFile, if_pos rfl]
      rw [deleteFile_eq_self (hasFile_false (by simpa using hnot))]
      simp
    rw [hrm, ih htail fun f hf =>
      hm f (by rw [List.map_cons]; exact List.mem_cons_of_mem _ hf)]

/-- C1 witness: draining a two-entry store with increasing filenames
returns the entries in enqueue order. -/
theorem c1_fifo_witness :
    drain noFail 2
        (mkState [("bugsnag-a-1.json", [("x", 1)]),
          ("bugsnag-a-2.json", [("x", 2)])]) =
      [("bugsnag-a-1.json", [("x", 1)]), ("bugsnag-a-2.json", [("x", 2)])] :=
  c1_fifo [("bugsnag-a-1.json", [("x", 1)]), ("bugsnag-a-2.json", [("x", 2)])]
    (by decide) (by decide)

/-- C2: bounded size under truncation.  On a store of `N > 64` entries
enqueued with strictly increasing filenames, a completed `_truncate`
pass leaves exactly the 64 most-recently-enqueued entries — the
`overflow = N - 64` oldest having been removed — and clears the
single-flight guard. -/
theorem c2_truncate_bound (l : List (String × Obj))
    (hp : (l.map fun p => p.1).Pairwise (fun a b => strLt a b = true))
    (hm : ∀ f ∈ l.map fun p => p.1, filenameRe f = true)
    (hn : 64 < l.length) :
    (truncate noFail (mkState l)).files =
        (l.drop (l.length - 64)).map (fun p => (p.1, Content.json p.2)) ∧
      (truncate noFail (mkState l)).files.length = 64 ∧
      (truncate noFail (mkState l)).truncating = false := by
  have hgo : truncate noFail (mkState l) =
      truncateGo noFail { mkState l with truncating := true } := by
    rw [truncate, if_neg (by rw [mkState]; simp)]
  have hrd : readDirectoryAsync noFail
      ({ mkState l with truncating := true }).files =
      .ok (l.map fun p => p.1) := by
    rw [readDirectoryAsync, if_neg (by rw [noFail]; simp), mkState]
    simp
  have hsrt : sortStrings (filterMatching (l.map fun p => p.1)) =
      l.map fun p => p.1 := by
    rw [filterMatching_eq_self _ hm,
      sortStrings_eq_self (hp.chain'.imp fun a b hab => strLe_of_strLt hab)]
  have hmain : truncateGo noFail { mkState l with truncating := true } =
      { mkState l with
        files := (l.map fun q => (q.1, Content.json q.2)).drop
          (l.length - 64),
        truncating := false } := by
    rw [truncateGo, hrd]
    dsimp only
    rw [hsrt, if_neg (by simp only [List.length_map, MAX_ITEMS]; omega)]
    have htn : (((l.map fun p => p.1).length : Int) - MAX_ITEMS).toNat =
        l.length - 64 := by
      simp only [List.length_map, MAX_ITEMS]
      omega
    rw [htn]
    have hmm2 : (l.map fun p => p.1) =
        ((l.map fun q => (q.1, Content.json q.2)).map fun p => p.1) := by
      simp
    rw [hmm2, foldl_remove_take (l.map fun q => (q.1, Content.json q.2))
      (l.length - 64) { mkState l with truncating := true } rfl
      (by simpa using hp)]
  refine ⟨?_, ?_, ?_⟩
  · rw [hgo, hmain, List.map_drop]
  · rw [hgo, hmain]
    dsimp only
    simp only [List.length_drop, List.length_map]
    omega
  · rw [hgo, hmain]

/-- C2 witness: a 65-entry store truncates to its 64 newest entries. -/
theorem c2_truncate_bound_witness :
    (truncate noFail (mkState c2ex)).files =
        (c2ex.drop (c2ex.length - 64)).map
          (fun p => (p.1, Content.json p.2)) ∧
      (truncate noFail (mkState c2ex)).files.length = 64 ∧
      (truncate noFail (mkState c2ex)).truncating = false :=
  c2_truncate_bound c2ex (by decide) (by decide) (by decide)

/-- C7 counterexample: the store does not make `retries` monotone.
`enqueue` stores `retries = 0` even though the request carried
`retries = 7` (that part of the claim holds), but a later `update`
whose object carries a smaller `retries` value overwrites a larger one:
after `update(id, {retries: 5})` the stored value is 5, and a further
`update(id, {retries: 2})` drops it to 2 — a decrease under a store
operation, refuting "never decreases under any sequence of store
operations". -/
theorem c7_counterexample :
    getRetries
        (update noFail
          (enqueue noFail ⟨[], false, 0⟩ [("retries", 7)] "bugsnag-r.json")
          "bugsnag-r.json" [("retries", 5)])
        "bugsnag-r.json" = some 5 ∧
      getRetries
        (update noFail
          (update noFail
            (enqueue noFail ⟨[], false, 0⟩ [("retries", 7)] "bugsnag-r.json")
            "bugsnag-r.json" [("retries", 5)])
          "bugsnag-r.json" [("retries", 2)])
        "bugsnag-r.json" = some 2 :=
  ⟨by decide, by decide⟩

/-- C7 (amended): `enqueue` initializes `retries` to exactly 0 for
every caller-supplied request — including one that already carries a
`retries` field, which the spread `{ ...req, retries: 0 }` overrides;
`update` changes `retries` only when the update object carries that
key: without it the value is unchanged, and with it the stored value
becomes exactly the supplied one, hence never decreases as long as
every supplied value is at least the current one (as the retry
coordinator's increment-only updates are).  The store itself does not
reject a smaller supplied value — see the counterexample. -/
theorem c7_retries (s : QState) (req upd : Obj) (fn id : String) (v : Int)
    (hcap : countMatching
      (setFile s.files fn (.json (spread req [("retries", 0)]))) ≤ 64)
    (hv : getRetries s id = some v) :
    getRetries (enqueue noFail s req fn) fn = some 0 ∧
      (objHas upd "retries" = false →
        getRetries (update noFail s id upd) id = some v) ∧
      (∀ w, objGet upd "retries" = some w → v ≤ w →
        getRetries (update noFail s id upd) id = some w) := by
  rw [getRetries] at hv
  cases hl : lookupFile s.files id with
  | none =>
    rw [hl] at hv
    simp at hv
  | some c =>
    cases c with
    | corrupt =>
      rw [hl] at hv
      simp at hv
    | json o =>
      rw [hl] at hv
      dsimp only at hv
      refine ⟨?_, ?_, ?_⟩
      · rw [enqueue_ok]
        have hfiles : (truncate noFail
            { s with files := setFile s.files fn (Content.json (spread req [("retries", 0)])) }).files =
            setFile s.files fn (.json (spread req [("retries", 0)])) :=
          truncate_files_of_le hcap
        rw [getRetries, hfiles, lookupFile_setFile_self]
        exact objGet_spread_retries req
      · intro hhas
        rw [update_ok upd hl, getRetries]
        dsimp only
        rw [lookupFile_setFile_self]
        dsimp only
        rw [objGet_spread, objGet_none_of_not_has hhas]
        exact hv
      · intro w hw _
        rw [update_ok upd hl, getRetries]
        dsimp only
        rw [lookupFile_setFile_self]
        dsimp only
        rw [objGet_spread, hw]

/-- C7 witness: a fresh enqueue whose request carries `retries = 3`
still stores `retries = 0`. -/
theorem c7_retries_witness :
    getRetries
        (enqueue noFail (mkState [("bugsnag-m.json", [("retries", 1)])])
          [("x", 9), ("retries", 3)] "bugsnag-n.json")
        "bugsnag-n.json" = some 0 :=
  (c7_retries (mkState [("bugsnag-m.json", [("retries", 1)])])
      [("x", 9), ("retries", 3)] [("retries", 2)] "bugsnag-n.json"
      "bugsnag-m.json" 1 (by decide) (by decide)).1

/-- C10: files whose names do not match `bugsnag-*.json` are invisible
to the queue.  `_truncate` and `peek` never change them (for any
environment and state); `peek` never returns one; `enqueue` (whose
generated filenames always match), `remove` and `update` on a matching
id never change them; and they are not counted toward `MAX_ITEMS`: when
at most 64 MATCHING files exist, `_truncate` removes nothing at all, no
matter how many non-matching files sit in the directory. -/
theorem c10_frame (env : Env) (s : QState) (g : String) (n : Nat)
    (id fn : String) (req upd : Obj) (hg : filenameRe g = false) :
    lookupFile (truncate env s).files g = lookupFile s.files g ∧
      lookupFile (peekFuel env n s).2.files g = lookupFile s.files g ∧
      (∀ i o, (peekFuel env n s).1 = some (some (i, o)) →
        filenameRe i = true) ∧
      (filenameRe fn = true →
        lookupFile (enqueue env s req fn).files g = lookupFile s.files g) ∧
      (filenameRe id = true →
        lookupFile (remove env s id).files g = lookupFile s.files g ∧
        lookupFile (update env s id upd).files g = lookupFile s.files g) ∧
      (countMatching s.files ≤ 64 → (truncate env s).files = s.files) := by
  refine ⟨truncate_frame hg, (peek_frame hg n s).1, (peek_frame hg n s).2,
    ?_, ?_, fun hcap => truncate_files_of_le hcap⟩
  · intro hfn
    have hne : g ≠ fn := fun he => by
      rw [he, hfn] at hg
      cases hg
    rw [enqueue]
    by_cases hin : env.initFails
    · rw [if_pos hin]
    · rw [if_neg hin]
      cases hw : writeAsStringAsync env s.files fn
          (spread req [("retries", 0)]) with
      | error e => rfl
      | ok fs =>
        dsimp only
        rcases write_ok_or env s.files fn (spread req [("retries", 0)]) with
          h | h
        · rw [h] at hw
          injection hw with h2
          subst h2
          rw [truncate_frame hg]
          exact lookupFile_setFile_ne s.files _ hne
        · rw [h] at hw
          cases hw
  · intro hid
    have hne : g ≠ id := fun he => by
      rw [he, hid] at hg
      cases hg
    refine ⟨remove_frame hne, ?_⟩
    rw [update]
    cases hrp : readParse env s.files id with
    | error e => rfl
    | ok o =>
      dsimp only
      cases hw : writeAsStringAsync env s.files id (spread o upd) with
      | error e => rfl
      | ok fs =>
        dsimp only
        rcases write_ok_or env s.files id (spread o upd) with h | h
        · rw [h] at hw
          injection hw with h2
          subst h2
          exact lookupFile_setFile_ne s.files _ hne
        · rw [h] at hw
          cases hw

/-- C10 witness: a non-matching file survives a truncation pass
unchanged. -/
theorem c10_frame_witness :
    lookupFile
        (truncate noFail
          ⟨[("junk.txt", Content.json [("j", 1)]),
            ("bugsnag-z.json", Content.json [("z", 1)])], false, 0⟩).files
        "junk.txt" =
      lookupFile
        [("junk.txt", Content.json [("j", 1)]),
          ("bugsnag-z.json", Content.json [("z", 1)])] "junk.txt" :=
  (c10_frame noFail _ "junk.txt" 2 "bugsnag-z.json" "bugsnag-z.json" [] []
    (by decide)).1

end Bq
